import Mathlib

/-!
Verification of `scripts/download_cef.py`: a shallow embedding of the
script's data model and operations, with theorems about platform
detection, stable-version selection, distribution-file selection,
archive-format dispatch and the main pipeline's observable effects.
-/

namespace DownloadCef

/-! ### Data model

JSON records read from the remote index.  A Python `dict.get(k)` that may
miss is an `Option` field; `dict.get(k, d)` becomes `(·.getD d)` at the
use site. -/

structure FileEntry where
  type : Option String := none
  name : Option String := none
  sha1 : Option String := none
  deriving DecidableEq, Repr

structure VersionEntry where
  channel : Option String := none
  chromium_version : Option String := none
  cef_version : Option String := none
  files : Option (List FileEntry) := none
  deriving DecidableEq, Repr

structure PlatformData where
  versions : Option (List VersionEntry) := none
  deriving DecidableEq, Repr

/-- The top-level index JSON object: platform id keyed records, in
document order. -/
structure Index where
  entries : List (String × PlatformData)
  deriving DecidableEq, Repr

/-! ### Constants and platform detection -/

def CEF_DOWNLOAD_BASE : String := "https://cef-builds.spotifycdn.com"

/-- `PLATFORM_MAP`: platform id to (system, machine), in insertion order. -/
def PLATFORM_MAP : List (String × String × String) :=
  [("linux64", "Linux", "x86_64"),
   ("linuxarm64", "Linux", "aarch64"),
   ("macosx64", "Darwin", "x86_64"),
   ("macosarm64", "Darwin", "arm64"),
   ("windows64", "Windows", "AMD64"),
   ("windowsarm64", "Windows", "ARM64")]

/-- `get_platform_id`: first mapping entry whose pair matches the host's
`platform.system()` / `platform.machine()`, else a RuntimeError. -/
def get_platform_id (system machine : String) : Except String String :=
  match PLATFORM_MAP.find? (fun e => e.2.1 == system && e.2.2 == machine) with
  | some e => Except.ok e.1
  | none => Except.error ("Unsupported: " ++ system ++ " " ++ machine)

/-! ### Version selection -/

/-- `index.get(platform_id, {}).get("versions", [])`. -/
def versionsOf (index : Index) (platform_id : String) : List VersionEntry :=
  (((index.entries.lookup platform_id).getD {}).versions).getD []

/-- `[v for v in versions if v.get("channel") == "stable"]`. -/
def stableOf (index : Index) (platform_id : String) : List VersionEntry :=
  (versionsOf index platform_id).filter (fun v => v.channel == some "stable")

/-- `s.split(".")[0]`: the characters before the first dot. -/
def takeUntilDot : List Char → List Char
  | [] => []
  | c :: cs => if c = '.' then [] else c :: takeUntilDot cs

def leadComponent (s : String) : String := String.mk (takeUntilDot s.data)

def natDigitsAux : List Char → Nat → Option Nat
  | [], acc => some acc
  | c :: cs, acc =>
    if c.isDigit then natDigitsAux cs (acc * 10 + (c.toNat - 48)) else none

/-- Models Python `int()` on the strings this script feeds it: an optional
minus sign followed by decimal digits; `none` models the ValueError raised
on every other input.  (Python additionally tolerates surrounding
whitespace, a plus sign and digit-group underscores, which never occur in
version components.) -/
def pyInt (s : String) : Option Int :=
  match s.data with
  | [] => none
  | '-' :: cs =>
    match cs with
    | [] => none
    | _ => (natDigitsAux cs 0).map (fun n => -(n : Int))
  | cs => (natDigitsAux cs 0).map (fun n => (n : Int))

/-- The sort key `int(v.get("chromium_version", "0").split(".")[0])`,
`none` when `int()` would raise. -/
def sortKey (v : VersionEntry) : Option Int :=
  pyInt (leadComponent (v.chromium_version.getD "0"))

/-- The sort key with parse failure defaulted; used only to state
theorems, always under the hypothesis that every key parses. -/
def keyD (v : VersionEntry) : Int := (sortKey v).getD 0

/-- The decorate step of `list.sort(key=f)`: compute every element's key,
failing like Python's raising key function when any fails. -/
def decorate (f : α → Option Int) : List α → Option (List (Int × α))
  | [] => some []
  | a :: l =>
    match f a, decorate f l with
    | some k, some r => some ((k, a) :: r)
    | _, _ => none

/-- Insertion into a descending-sorted list, placed before the first
strictly smaller key, i.e. after equal keys. -/
def insDesc (key : α → Int) (a : α) : List α → List α
  | [] => [a]
  | b :: bs => if key b ≤ key a then a :: b :: bs else b :: insDesc key a bs

/-- Stable descending sort: together with `insDesc` this reproduces the
order `list.sort(key=..., reverse=True)` leaves (a stable sort, descending
by key, with equal keys in original relative order). -/
def sortDesc (key : α → Int) (l : List α) : List α := l.foldr (insDesc key) []

/-- `find_latest_stable`: filter to the stable channel, fail when empty,
sort descending by leading chromium version component, return the head. -/
def find_latest_stable (index : Index) (platform_id : String) :
    Except String VersionEntry :=
  let stable := stableOf index platform_id
  if stable.isEmpty then
    Except.error ("No stable version for " ++ platform_id)
  else
    match decorate sortKey stable with
    | none => Except.error "invalid chromium_version"
    | some keyed =>
      match (sortDesc Prod.fst keyed).head? with
      | some p => Except.ok p.2
      | none => Except.error ("No stable version for " ++ platform_id)

/-! ### Distribution file selection -/

/-- `get_minimal_dist`: first file of type "minimal", else first of type
"standard", else a RuntimeError. -/
def get_minimal_dist (version_data : VersionEntry) : Except String FileEntry :=
  match (version_data.files.getD []).find? (fun f => f.type == some "minimal") with
  | some f => Except.ok f
  | none =>
    match (version_data.files.getD []).find? (fun f => f.type == some "standard") with
    | some f => Except.ok f
    | none => Except.error "No distribution found"

/-! ### Archive extraction dispatch -/

/-- Split a character list around its last dot into (before, after);
`none` when there is no dot.  Models the `rfind('.')` inside
`pathlib.PurePath.suffix`. -/
def splitLastDot : List Char → Option (List Char × List Char)
  | [] => none
  | c :: cs =>
    match splitLastDot cs with
    | some (b, a) => some (c :: b, a)
    | none => if c = '.' then some ([], cs) else none

/-- Models `pathlib.PurePath.suffix` on a final path component: the text
from the last dot on, empty when the dot is the first or the last
character of the name. -/
def pySuffix (s : String) : String :=
  match splitLastDot s.data with
  | some (b, a) => if b ≠ [] ∧ a ≠ [] then String.mk ('.' :: a) else ""
  | none => ""

/-- Models the Python substring test `sub in s`. -/
def containsSub (sub : List Char) : List Char → Bool
  | [] => sub.isEmpty
  | c :: cs => sub.isPrefixOf (c :: cs) || containsSub sub cs

inductive ArchiveKind
  | tarBz2
  | zip
  deriving DecidableEq, Repr

/-- The dispatch of `extract`: tar+bzip2 when the suffix is ".bz2" or
".tar" occurs in the name, zip otherwise. -/
def extractDispatch (archive_name : String) : ArchiveKind :=
  if pySuffix archive_name == ".bz2" || containsSub ".tar".data archive_name.data then
    ArchiveKind.tarBz2
  else
    ArchiveKind.zip

/-! ### The main pipeline

`main` is modelled as a pure function from the parsed arguments, the
host's system/machine strings, the fetched index, whether the archive
file already exists in the output directory, and the directory entries
the `cef_binary_*` glob finds after extraction, to the sequence of
observable effects (or the uncaught error that terminates the run). -/

structure Args where
  platform : Option String := none
  output_dir : String := "cef_download"
  version : Option String := none
  info_only : Bool := false
  deriving DecidableEq, Repr

inductive Effect
  | printInfo (cef_version url sha1 : String)
  | mkdirOutput (dir : String)
  | download (url dest : String)
  | useCached (path : String)
  | extractArchive (kind : ArchiveKind) (dest : String)
  | reportReady (path : String)
  | writeVersionFile (content : String)
  deriving DecidableEq, Repr

/-- Everything `main` resolves before the info-only branch. -/
structure Selection where
  platform_id : String
  version_data : VersionEntry
  cef_version : String
  file_info : FileEntry
  filename : String
  sha1 : String
  url : String
  deriving DecidableEq, Repr

/-- `args.platform or get_platform_id()`: Python `or` also falls through
on an empty string. -/
def resolvePlatform (arg_platform : Option String) (system machine : String) :
    Except String String :=
  match arg_platform with
  | some p => if p.isEmpty then get_platform_id system machine else Except.ok p
  | none => get_platform_id system machine

/-- The selection prefix of `main`: platform, version entry, version
label, file entry, filename, sha1 and download URL. -/
def select (args : Args) (system machine : String) (index : Index) :
    Except String Selection := do
  let platform_id ← resolvePlatform args.platform system machine
  let version_data ← find_latest_stable index platform_id
  let cef_version := version_data.cef_version.getD "unknown"
  let file_info ← get_minimal_dist version_data
  match file_info.name with
  | none => Except.error "KeyError: name"
  | some filename =>
    Except.ok { platform_id := platform_id, version_data := version_data,
                cef_version := cef_version, file_info := file_info,
                filename := filename, sha1 := file_info.sha1.getD "",
                url := CEF_DOWNLOAD_BASE ++ "/" ++ filename }

/-- The effect sequence of `main` after selection: info-only printing, or
mkdir, download/cache reuse, extraction, and the conditional report and
version-marker write. -/
def runEffects (args : Args) (sel : Selection) (archive_exists : Bool)
    (extracted_dirs : List String) : List Effect :=
  if args.info_only then
    [Effect.printInfo sel.cef_version sel.url sel.sha1]
  else
    Effect.mkdirOutput args.output_dir ::
    (if archive_exists then
       Effect.useCached (args.output_dir ++ "/" ++ sel.filename)
     else
       Effect.download sel.url (args.output_dir ++ "/" ++ sel.filename)) ::
    Effect.extractArchive (extractDispatch sel.filename) args.output_dir ::
    (match extracted_dirs with
     | [] => []
     | d :: _ => [Effect.reportReady d, Effect.writeVersionFile sel.cef_version])

def main (args : Args) (system machine : String) (index : Index)
    (archive_exists : Bool) (extracted_dirs : List String) :
    Except String (List Effect) :=
  (select args system machine index).map
    (fun sel => runEffects args sel archive_exists extracted_dirs)

/-! ### Helper lemmas -/

theorem except_map_ok {α β : Type} {f : α → β} {x : Except String α} {y : β}
    (h : x.map f = Except.ok y) : ∃ a, x = Except.ok a ∧ y = f a := by
  cases x with
  | error e => simp [Except.map] at h
  | ok a => exact ⟨a, rfl, by simpa [Except.map] using h.symm⟩

/-- The first element of `l` whose key no later element strictly
exceeds: the element a stable descending sort brings to the front. -/
def firstMax? (key : α → Int) : List α → Option α
  | [] => none
  | a :: l =>
    match firstMax? key l with
    | none => some a
    | some m => some (if key m ≤ key a then a else m)

theorem firstMax?_eq_none {key : α → Int} {l : List α} :
    firstMax? key l = none ↔ l = [] := by
  cases l with
  | nil => simp [firstMax?]
  | cons a l =>
    cases h : firstMax? key l <;> simp [firstMax?, h]

theorem insDesc_head? (key : α → Int) (a : α) (l : List α) :
    (insDesc key a l).head? =
      some (match l.head? with
            | none => a
            | some b => if key b ≤ key a then a else b) := by
  cases l with
  | nil => rfl
  | cons b bs => by_cases h : key b ≤ key a <;> simp [insDesc, h]

theorem sortDesc_head? (key : α → Int) (l : List α) :
    (sortDesc key l).head? = firstMax? key l := by
  induction l with
  | nil => rfl
  | cons a l ih =>
    have hs : sortDesc key (a :: l) = insDesc key a (sortDesc key l) := rfl
    rw [hs, insDesc_head?, ih]
    cases h : firstMax? key l <;> simp [firstMax?, h]

theorem firstMax?_spec (key : α → Int) :
    ∀ (l : List α) (a : α), firstMax? key l = some a →
      a ∈ l ∧ (∀ b ∈ l, key b ≤ key a) ∧
      ∃ l₁ l₂, l = l₁ ++ a :: l₂ ∧ ∀ b ∈ l₁, key b < key a := by
  intro l
  induction l with
  | nil => intro a h; simp [firstMax?] at h
  | cons c l ih =>
    intro a h
    cases hl : firstMax? key l with
    | none =>
      have hnil : l = [] := firstMax?_eq_none.mp hl
      subst hnil
      simp [firstMax?] at h
      subst h
      exact ⟨List.mem_cons_self _ _, by simp, [], [], rfl, by simp⟩
    | some m =>
      obtain ⟨hmem, hbound, l₁, l₂, hsplit, hlt⟩ := ih m hl
      rw [firstMax?, hl] at h
      by_cases hc : key m ≤ key c
      · simp [hc] at h
        subst h
        refine ⟨List.mem_cons_self _ _, ?_, [], l, rfl, by simp⟩
        intro b hb
        rcases List.mem_cons.mp hb with hb | hb
        · exact le_of_eq (by rw [hb])
        · exact le_trans (hbound b hb) hc
      · simp [hc] at h
        subst h
        push_neg at hc
        refine ⟨List.mem_cons_of_mem _ hmem, ?_, c :: l₁, l₂, by simp [hsplit], ?_⟩
        · intro b hb
          rcases List.mem_cons.mp hb with hb | hb
          · exact le_of_lt (by rw [hb]; exact hc)
          · exact hbound b hb
        · intro b hb
          rcases List.mem_cons.mp hb with hb | hb
          · rw [hb]; exact hc
          · exact hlt b hb

theorem firstMax?_of_split (key : α → Int) :
    ∀ (l₁ : List α) (a : α) (l₂ : List α),
      (∀ b ∈ l₁ ++ a :: l₂, key b ≤ key a) →
      (∀ b ∈ l₁, key b < key a) →
      firstMax? key (l₁ ++ a :: l₂) = some a := by
  intro l₁
  induction l₁ with
  | nil =>
    intro a l₂ hmax _
    cases h : firstMax? key l₂ with
    | none => simp [firstMax?, h]
    | some m =>
      obtain ⟨hmem, _, _⟩ := firstMax?_spec key l₂ m h
      have : key m ≤ key a := hmax m (by simp [hmem])
      simp [firstMax?, h, this]
  | cons c l₁ ih =>
    intro a l₂ hmax hfirst
    have hrest : firstMax? key (l₁ ++ a :: l₂) = some a := by
      refine ih a l₂ ?_ ?_
      · intro b hb; exact hmax b (by simp [List.mem_cons]; right; simpa using hb)
      · intro b hb; exact hfirst b (List.mem_cons_of_mem _ hb)
    have hc : key c < key a := hfirst c (List.mem_cons_self _ _)
    have hca : ¬ key a ≤ key c := not_le.mpr hc
    simp only [List.cons_append, firstMax?, List.append_eq]
    rw [hrest]
    simp [hca]

theorem decorate_eq_map (f : α → Option Int) :
    ∀ l : List α, (∀ a ∈ l, (f a).isSome) →
      decorate f l = some (l.map (fun a => ((f a).getD 0, a))) := by
  intro l
  induction l with
  | nil => intro _; rfl
  | cons a l ih =>
    intro h
    have ha : (f a).isSome := h a (List.mem_cons_self _ _)
    cases hfa : f a with
    | none => rw [hfa] at ha; simp at ha
    | some k =>
      have hrest := ih (fun b hb => h b (List.mem_cons_of_mem _ hb))
      simp [decorate, hfa, hrest]

theorem firstMax?_map_pair (g : α → Int) :
    ∀ l : List α, firstMax? Prod.fst (l.map (fun a => (g a, a))) =
      (firstMax? g l).map (fun a => (g a, a)) := by
  intro l
  induction l with
  | nil => rfl
  | cons a l ih =>
    cases h : firstMax? g l with
    | none =>
      simp only [List.map_cons, firstMax?, ih, h]
      rfl
    | some m =>
      simp only [List.map_cons, firstMax?, ih, h, Option.map_some]
      by_cases hc : g m ≤ g a <;> simp [hc]

/-- `find_latest_stable` returns the first stable entry whose key no
other stable entry's key exceeds, whenever every key parses. -/
theorem find_latest_stable_eq_firstMax (index : Index) (pid : String)
    (hkeys : ∀ v ∈ stableOf index pid, (sortKey v).isSome)
    {m : VersionEntry} (hm : firstMax? keyD (stableOf index pid) = some m) :
    find_latest_stable index pid = Except.ok m := by
  have hdec : decorate sortKey (stableOf index pid) =
      some ((stableOf index pid).map (fun v => (keyD v, v))) :=
    decorate_eq_map sortKey (stableOf index pid) hkeys
  have hempty : (stableOf index pid).isEmpty = false := by
    cases hs : stableOf index pid with
    | nil => rw [hs] at hm; simp [firstMax?] at hm
    | cons v vs => rfl
  unfold find_latest_stable
  simp [hempty, hdec, sortDesc_head?, firstMax?_map_pair, hm]

/-! ### Concrete fixtures (indexes, entries, runs) -/

def v120 : VersionEntry :=
  { channel := some "stable", chromium_version := some "120.0.6099.109",
    cef_version := some "120.2.7", files := some [] }

def v119 : VersionEntry :=
  { channel := some "stable", chromium_version := some "119.0.6045.0",
    cef_version := some "119.4.3", files := some [] }

def vBeta : VersionEntry :=
  { channel := some "beta", chromium_version := some "121.0.1.0",
    cef_version := some "121.0.0", files := some [] }

def idx12 : Index := ⟨[("linux64", { versions := some [vBeta, v119, v120] })]⟩

def idxBetaOnly : Index := ⟨[("linux64", { versions := some [vBeta] })]⟩

def vTieA : VersionEntry :=
  { channel := some "stable", chromium_version := some "120.0.6099.71",
    cef_version := some "120.1.1", files := some [] }

def vTieB : VersionEntry :=
  { channel := some "stable", chromium_version := some "120.0.6099.109",
    cef_version := some "120.9.9", files := some [] }

def idxTie : Index := ⟨[("linux64", { versions := some [vTieA, vTieB] })]⟩

def vNoA : VersionEntry :=
  { channel := some "stable", cef_version := some "100.0.1", files := some [] }

def vNoB : VersionEntry :=
  { channel := some "stable", cef_version := some "99.0.2", files := some [] }

def idxNone : Index := ⟨[("linux64", { versions := some [vNoA, vNoB] })]⟩

/-! ### Claims about version selection -/

/-- C1: for every index whose version list for the given platform
contains stable entries (all of whose sort keys parse, as Python's
`int()` requires), `find_latest_stable` returns a stable entry of that
list whose leading numeric version component is greatest. -/
theorem C1_latest_stable_is_max (index : Index) (pid : String)
    (hne : stableOf index pid ≠ [])
    (hkeys : ∀ v ∈ stableOf index pid, (sortKey v).isSome) :
    ∃ r, find_latest_stable index pid = Except.ok r ∧
      r ∈ stableOf index pid ∧ r.channel = some "stable" ∧
      ∀ w ∈ stableOf index pid, keyD w ≤ keyD r := by
  cases hm : firstMax? keyD (stableOf index pid) with
  | none => exact absurd (firstMax?_eq_none.mp hm) hne
  | some m =>
    obtain ⟨hmem, hbound, _⟩ := firstMax?_spec keyD (stableOf index pid) m hm
    have hmem' : m ∈ (versionsOf index pid).filter
        (fun v => v.channel == some "stable") := hmem
    have hch : m.channel = some "stable" := by
      have h2 := (List.mem_filter.mp hmem').2
      simpa using h2
    exact ⟨m, find_latest_stable_eq_firstMax index pid hkeys hm, hmem, hch, hbound⟩

/-- C1 witness: on an index holding stable entries with leading
components 119 and 120 (and a beta 121), the 120 entry is returned. -/
theorem C1_witness :
    (∃ r, find_latest_stable idx12 "linux64" = Except.ok r ∧
      r ∈ stableOf idx12 "linux64" ∧ r.channel = some "stable" ∧
      ∀ w ∈ stableOf idx12 "linux64", keyD w ≤ keyD r) ∧
    find_latest_stable idx12 "linux64" = Except.ok v120 :=
  ⟨C1_latest_stable_is_max idx12 "linux64" (by decide) (by decide), by rfl⟩

/-- C6: when no version entry for the platform has channel "stable",
`find_latest_stable` fails with the no-stable-version error. -/
theorem C6_no_stable_error (index : Index) (pid : String)
    (h : ∀ v ∈ versionsOf index pid, v.channel ≠ some "stable") :
    find_latest_stable index pid =
      Except.error ("No stable version for " ++ pid) := by
  have hnil : stableOf index pid = [] := by
    have hfil : (versionsOf index pid).filter
        (fun v => v.channel == some "stable") = [] := by
      rw [List.filter_eq_nil_iff]
      intro v hv
      simpa using h v hv
    exact hfil
  unfold find_latest_stable
  simp [hnil]

/-- C6 witness: an index whose only entry for the platform is on the
beta channel makes selection fail. -/
theorem C6_witness :
    find_latest_stable idxBetaOnly "linux64" =
      Except.error ("No stable version for " ++ "linux64") :=
  C6_no_stable_error idxBetaOnly "linux64" (by decide)

/-- C9: when several stable entries share the largest leading numeric
component, `find_latest_stable` returns the one appearing first in the
index's list: the element before which every entry has a strictly
smaller key and which no entry's key exceeds. -/
theorem C9_tie_keeps_first (index : Index) (pid : String)
    (hkeys : ∀ v ∈ stableOf index pid, (sortKey v).isSome)
    (r : VersionEntry) (l₁ l₂ : List VersionEntry)
    (hsplit : stableOf index pid = l₁ ++ r :: l₂)
    (hmax : ∀ w ∈ stableOf index pid, keyD w ≤ keyD r)
    (hfirst : ∀ w ∈ l₁, keyD w < keyD r) :
    find_latest_stable index pid = Except.ok r := by
  apply find_latest_stable_eq_firstMax index pid hkeys
  rw [hsplit]
  refine firstMax?_of_split keyD l₁ r l₂ ?_ hfirst
  intro b hb
  exact hmax b (by rw [hsplit]; exact hb)

/-- C9 witness: two stable entries with the same leading component 120;
the one listed first is returned. -/
theorem C9_witness : find_latest_stable idxTie "linux64" = Except.ok vTieA :=
  C9_tie_keeps_first idxTie "linux64" (by decide) vTieA [] [vTieB]
    (by decide) (by decide) (by decide)

/-- C10: an entry with no chromium_version field gets sort key 0, is
never selected over a stable entry with a positive leading component,
and when every stable entry lacks the field the first stable entry in
index order is returned. -/
theorem C10_missing_chromium_version (index : Index) (pid : String)
    (hkeys : ∀ v ∈ stableOf index pid, (sortKey v).isSome) :
    (∀ v : VersionEntry, v.chromium_version = none → sortKey v = some 0) ∧
    (∀ r w, w ∈ stableOf index pid → 0 < keyD w →
      find_latest_stable index pid = Except.ok r →
      r.chromium_version ≠ none) ∧
    (∀ r rest, stableOf index pid = r :: rest →
      (∀ v ∈ stableOf index pid, v.chromium_version = none) →
      find_latest_stable index pid = Except.ok r) := by
  refine ⟨?_, ?_, ?_⟩
  · intro v hv
    simp only [sortKey, hv]
    rfl
  · intro r w hw hpos hrun
    cases hm : firstMax? keyD (stableOf index pid) with
    | none =>
      rw [firstMax?_eq_none.mp hm] at hw
      simp at hw
    | some m =>
      have heq := find_latest_stable_eq_firstMax index pid hkeys hm
      rw [heq] at hrun
      injection hrun with hmr
      obtain ⟨_, hbound, _⟩ := firstMax?_spec keyD (stableOf index pid) m hm
      intro hrnone
      have h0 : sortKey r = some 0 := by simp only [sortKey, hrnone]; rfl
      have hr0 : keyD r = 0 := by simp [keyD, h0]
      have hwle : keyD w ≤ keyD m := hbound w hw
      rw [hmr, hr0] at hwle
      linarith
  · intro r rest hsplit hall
    apply find_latest_stable_eq_firstMax index pid hkeys
    rw [hsplit]
    have hkey0 : ∀ v ∈ stableOf index pid, keyD v = 0 := by
      intro v hv
      have hvnone := hall v hv
      have h0 : sortKey v = some 0 := by simp only [sortKey, hvnone]; rfl
      simp [keyD, h0]
    have hmax : ∀ b ∈ [] ++ r :: rest, keyD b ≤ keyD r := by
      intro b hb
      have hb' : b ∈ stableOf index pid := by rw [hsplit]; simpa using hb
      have hr' : r ∈ stableOf index pid := by
        rw [hsplit]; exact List.mem_cons_self _ _
      rw [hkey0 b hb', hkey0 r hr']
    exact firstMax?_of_split keyD [] r rest hmax (by simp)

/-- C10 witness: an index whose stable entries all lack
chromium_version; selection still succeeds with the first entry. -/
theorem C10_witness :
    (∀ v : VersionEntry, v.chromium_version = none → sortKey v = some 0) ∧
    (∀ r w, w ∈ stableOf idxNone "linux64" → 0 < keyD w →
      find_latest_stable idxNone "linux64" = Except.ok r →
      r.chromium_version ≠ none) ∧
    (∀ r rest, stableOf idxNone "linux64" = r :: rest →
      (∀ v ∈ stableOf idxNone "linux64", v.chromium_version = none) →
      find_latest_stable idxNone "linux64" = Except.ok r) :=
  C10_missing_chromium_version idxNone "linux64" (by decide)

/-! ### Claims about file selection, platform detection, dispatch -/

theorem find?_first {α : Type} {p : α → Bool} :
    ∀ (l₁ : List α) (g : α) (l₂ : List α), p g = true →
      (∀ f ∈ l₁, ¬ p f = true) →
      List.find? p (l₁ ++ g :: l₂) = some g := by
  intro l₁
  induction l₁ with
  | nil => intro g l₂ hg _; simp [List.find?_cons_of_pos, hg]
  | cons c l₁ ih =>
    intro g l₂ hg hnone
    have hc : ¬ p c = true := hnone c (List.mem_cons_self _ _)
    rw [List.cons_append, List.find?_cons_of_neg _ (by simpa using hc)]
    exact ih g l₂ hg (fun f hf => hnone f (List.mem_cons_of_mem _ hf))

/-- C2: `get_minimal_dist` returns a "minimal" file entry whenever one
exists; with no "minimal" entry it returns the first "standard" entry;
with neither kind it fails. -/
theorem C2_minimal_preferred (vd : VersionEntry) :
    ((∃ f ∈ vd.files.getD [], f.type = some "minimal") →
      ∃ g, get_minimal_dist vd = Except.ok g ∧ g ∈ vd.files.getD [] ∧
        g.type = some "minimal") ∧
    ((∀ f ∈ vd.files.getD [], f.type ≠ some "minimal") →
      ∀ (l₁ : List FileEntry) (g : FileEntry) (l₂ : List FileEntry),
        vd.files.getD [] = l₁ ++ g :: l₂ → g.type = some "standard" →
        (∀ f ∈ l₁, f.type ≠ some "standard") →
        get_minimal_dist vd = Except.ok g) ∧
    ((∀ f ∈ vd.files.getD [],
        f.type ≠ some "minimal" ∧ f.type ≠ some "standard") →
      get_minimal_dist vd = Except.error "No distribution found") := by
  refine ⟨?_, ?_, ?_⟩
  · rintro ⟨f, hf, htype⟩
    have hsome : ((vd.files.getD []).find?
        (fun f => f.type == some "minimal")).isSome := by
      rw [List.find?_isSome]
      exact ⟨f, hf, by simpa using htype⟩
    obtain ⟨g, hg⟩ := Option.isSome_iff_exists.mp hsome
    refine ⟨g, ?_, List.mem_of_find?_eq_some hg, by simpa using List.find?_some hg⟩
    unfold get_minimal_dist
    rw [hg]
  · intro hnomin l₁ g l₂ hsplit hg hfirst
    have hmin : (vd.files.getD []).find?
        (fun f => f.type == some "minimal") = none := by
      rw [List.find?_eq_none]
      intro f hf
      simpa using hnomin f hf
    have hstd : (vd.files.getD []).find?
        (fun f => f.type == some "standard") = some g := by
      rw [hsplit]
      exact find?_first l₁ g l₂ (by simpa using hg)
        (fun f hf => by simpa using hfirst f hf)
    unfold get_minimal_dist
    rw [hmin, hstd]
  · intro hnone
    have hmin : (vd.files.getD []).find?
        (fun f => f.type == some "minimal") = none := by
      rw [List.find?_eq_none]
      intro f hf
      simpa using (hnone f hf).1
    have hstd : (vd.files.getD []).find?
        (fun f => f.type == some "standard") = none := by
      rw [List.find?_eq_none]
      intro f hf
      simpa using (hnone f hf).2
    unfold get_minimal_dist
    rw [hmin, hstd]

/-- C3: for every (system, machine) pair in the platform mapping,
detection returns the mapped platform id; for every pair in no mapping
entry, it fails with the unsupported-platform error. -/
theorem C3_platform_detection :
    (∀ e ∈ PLATFORM_MAP, get_platform_id e.2.1 e.2.2 = Except.ok e.1) ∧
    (∀ system machine, (∀ pid, (pid, system, machine) ∉ PLATFORM_MAP) →
      get_platform_id system machine =
        Except.error ("Unsupported: " ++ system ++ " " ++ machine)) := by
  constructor
  · intro e he
    fin_cases he <;> rfl
  · intro system machine h
    have hfind : PLATFORM_MAP.find?
        (fun e => e.2.1 == system && e.2.2 == machine) = none := by
      rw [List.find?_eq_none]
      rintro ⟨a, b, c⟩ he
      simp only [Bool.and_eq_true, beq_iff_eq, not_and]
      intro h1 h2
      subst h1; subst h2
      exact absurd he (h a)
    unfold get_platform_id
    rw [hfind]

theorem isPrefixOf_iff_exists (sub : List Char) :
    ∀ l, sub.isPrefixOf l = true ↔ ∃ t, l = sub ++ t := by
  induction sub with
  | nil => intro l; simp [List.isPrefixOf]
  | cons c cs ih =>
    intro l
    cases l with
    | nil => simp [List.isPrefixOf]
    | cons d ds =>
      simp only [List.isPrefixOf, Bool.and_eq_true, beq_iff_eq]
      constructor
      · rintro ⟨hcd, hpre⟩
        obtain ⟨t, ht⟩ := (ih ds).mp hpre
        subst hcd
        exact ⟨t, by rw [ht]; rfl⟩
      · rintro ⟨t, ht⟩
        have ht' : d :: ds = c :: (cs ++ t) := by simpa using ht
        injection ht' with h1 h2
        exact ⟨h1.symm, (ih ds).mpr ⟨t, h2⟩⟩

theorem containsSub_iff_exists (sub : List Char) :
    ∀ l, containsSub sub l = true ↔ ∃ p t, l = p ++ sub ++ t := by
  intro l
  induction l with
  | nil =>
    simp only [containsSub, List.isEmpty_iff]
    constructor
    · intro h; exact ⟨[], [], by simp [h]⟩
    · rintro ⟨p, t, ht⟩
      have h2 := ht.symm
      rw [List.append_eq_nil] at h2
      exact (List.append_eq_nil.mp h2.1).2
  | cons c cs ih =>
    simp only [containsSub, Bool.or_eq_true]
    constructor
    · rintro (hp | hc)
      · obtain ⟨t, ht⟩ := (isPrefixOf_iff_exists sub (c :: cs)).mp hp
        exact ⟨[], t, by simpa using ht⟩
      · obtain ⟨p, t, ht⟩ := ih.mp hc
        exact ⟨c :: p, t, by simp [ht]⟩
    · rintro ⟨p, t, ht⟩
      cases p with
      | nil =>
        left
        exact (isPrefixOf_iff_exists sub (c :: cs)).mpr ⟨t, by simpa using ht⟩
      | cons d p =>
        right
        apply ih.mpr
        refine ⟨p, t, ?_⟩
        have ht' : c :: cs = d :: (p ++ sub ++ t) := by simpa using ht
        injection ht' with _ h2

/-- C4: extraction dispatches to tar+bzip2 exactly when the name's
suffix is ".bz2" or ".tar" occurs in the name, and to zip otherwise;
in particular a ".tar.bz2" name goes to tar/bzip2 and a ".zip" name to
zip. -/
theorem C4_extract_dispatch :
    (∀ nm : String, extractDispatch nm = ArchiveKind.tarBz2 ↔
      (pySuffix nm = ".bz2" ∨ ∃ p t, nm.data = p ++ ".tar".data ++ t)) ∧
    (∀ nm : String, extractDispatch nm ≠ ArchiveKind.tarBz2 →
      extractDispatch nm = ArchiveKind.zip) ∧
    extractDispatch "cef_binary_120.2.7_linux64_minimal.tar.bz2" =
      ArchiveKind.tarBz2 ∧
    extractDispatch "cef_binary_120.2.7_windows64_minimal.zip" =
      ArchiveKind.zip := by
  have hcond : ∀ nm : String, extractDispatch nm = ArchiveKind.tarBz2 ↔
      (pySuffix nm == ".bz2" || containsSub ".tar".data nm.data) = true := by
    intro nm
    unfold extractDispatch
    by_cases h : (pySuffix nm == ".bz2" || containsSub ".tar".data nm.data) = true
    · simp [h]
    · simp [h]
  refine ⟨?_, ?_, by rfl, by rfl⟩
  · intro nm
    rw [hcond nm, Bool.or_eq_true, beq_iff_eq,
      containsSub_iff_exists ".tar".data nm.data]
  · intro nm h
    unfold extractDispatch at h ⊢
    by_cases hc : (pySuffix nm == ".bz2" || containsSub ".tar".data nm.data) = true
    · rw [if_pos hc] at h
      exact absurd rfl h
    · rw [if_neg hc]

/-! ### Claims about the main pipeline -/

def exFileM : FileEntry :=
  { type := some "minimal",
    name := some "cef_binary_120.2.7_linux64_minimal.tar.bz2",
    sha1 := some "0f1e2d" }

def exFileS : FileEntry :=
  { type := some "standard",
    name := some "cef_binary_120.2.7_linux64.tar.bz2",
    sha1 := some "3c4b5a" }

def exVersion : VersionEntry := { v120 with files := some [exFileS, exFileM] }

def exIndex : Index := ⟨[("linux64", { versions := some [exVersion] })]⟩

def exArgs : Args :=
  { platform := some "linux64", output_dir := "out", info_only := false }

/-- The effect list of the fixture run with a cached archive and one
glob match. -/
def exRunEffects : List Effect :=
  [Effect.mkdirOutput "out",
   Effect.useCached "out/cef_binary_120.2.7_linux64_minimal.tar.bz2",
   Effect.extractArchive ArchiveKind.tarBz2 "out",
   Effect.reportReady "out/cef_binary_120.2.7_linux64_minimal",
   Effect.writeVersionFile "120.2.7"]

/-- C7: in a non-info-only run whose archive file already exists in the
output directory, no download of the archive is issued; the cached file
is reused and extracted. -/
theorem C7_cached_archive_skips_download (args : Args)
    (system machine : String) (index : Index)
    (extracted_dirs : List String) (effs : List Effect)
    (hinfo : args.info_only = false)
    (hrun : main args system machine index true extracted_dirs =
      Except.ok effs) :
    (∀ u d, Effect.download u d ∉ effs) ∧
    ∃ sel, select args system machine index = Except.ok sel ∧
      Effect.useCached (args.output_dir ++ "/" ++ sel.filename) ∈ effs ∧
      Effect.extractArchive (extractDispatch sel.filename) args.output_dir
        ∈ effs := by
  obtain ⟨sel, hsel, heffs⟩ := except_map_ok hrun
  subst heffs
  refine ⟨?_, sel, hsel, ?_, ?_⟩ <;>
    cases extracted_dirs <;> simp [runEffects, hinfo]

/-- C7 witness: the fixture run with a pre-existing archive has no
download effect and reuses the cached file. -/
theorem C7_witness :
    (∀ u d, Effect.download u d ∉ exRunEffects) ∧
    ∃ sel, select exArgs "Linux" "x86_64" exIndex = Except.ok sel ∧
      Effect.useCached ("out" ++ "/" ++ sel.filename) ∈ exRunEffects ∧
      Effect.extractArchive (extractDispatch sel.filename) "out"
        ∈ exRunEffects :=
  C7_cached_archive_skips_download exArgs "Linux" "x86_64" exIndex
    ["out/cef_binary_120.2.7_linux64_minimal"] exRunEffects rfl (by rfl)

/-- C8: the --version flag never influences selection or effects: two
runs differing only in it resolve the same selection and produce the
same outcome. -/
theorem C8_version_flag_unused (args : Args) (v1 v2 : Option String)
    (system machine : String) (index : Index) (archive_exists : Bool)
    (extracted_dirs : List String) :
    select { args with version := v1 } system machine index =
      select { args with version := v2 } system machine index ∧
    main { args with version := v1 } system machine index
        archive_exists extracted_dirs =
      main { args with version := v2 } system machine index
        archive_exists extracted_dirs := by
  cases args
  exact ⟨rfl, rfl⟩

/-- C5 counterexample: a non-info-only run that downloads and extracts
the archive but, the glob finding no `cef_binary_*` entry, neither
reports a path nor writes the version marker file. -/
theorem C5_counterexample :
    ∃ effs, main exArgs "Linux" "x86_64" exIndex false [] = Except.ok effs ∧
      (∃ u d, Effect.download u d ∈ effs) ∧
      (∃ k dd, Effect.extractArchive k dd ∈ effs) ∧
      (∀ c, Effect.writeVersionFile c ∉ effs) ∧
      (∀ p, Effect.reportReady p ∉ effs) := by
  refine ⟨[Effect.mkdirOutput "out",
    Effect.download
      "https://cef-builds.spotifycdn.com/cef_binary_120.2.7_linux64_minimal.tar.bz2"
      "out/cef_binary_120.2.7_linux64_minimal.tar.bz2",
    Effect.extractArchive ArchiveKind.tarBz2 "out"],
    by rfl,
    ⟨"https://cef-builds.spotifycdn.com/cef_binary_120.2.7_linux64_minimal.tar.bz2",
     "out/cef_binary_120.2.7_linux64_minimal.tar.bz2", by decide⟩,
    ⟨ArchiveKind.tarBz2, "out", by decide⟩, ?_, ?_⟩
  · intro c hmem
    simp at hmem
  · intro p hmem
    simp at hmem

/-- C5 (amended): in a non-info-only run the program reports the first
`cef_binary_*` glob match and writes the resolved version string to the
marker file provided the glob finds at least one entry; with no match
neither happens. -/
theorem C5_report_and_marker (args : Args) (system machine : String)
    (index : Index) (archive_exists : Bool) (d : String) (ds : List String)
    (effs : List Effect)
    (hinfo : args.info_only = false)
    (hrun : main args system machine index archive_exists (d :: ds) =
      Except.ok effs) :
    Effect.reportReady d ∈ effs ∧
    ∃ sel, select args system machine index = Except.ok sel ∧
      Effect.writeVersionFile sel.cef_version ∈ effs := by
  obtain ⟨sel, hsel, heffs⟩ := except_map_ok hrun
  subst heffs
  refine ⟨?_, sel, hsel, ?_⟩ <;>
    cases archive_exists <;> simp [runEffects, hinfo]

/-- C5 witness: the fixture run with one glob match reports it and
writes the version marker. -/
theorem C5_witness :
    Effect.reportReady "out/cef_binary_120.2.7_linux64_minimal"
      ∈ exRunEffects ∧
    ∃ sel, select exArgs "Linux" "x86_64" exIndex = Except.ok sel ∧
      Effect.writeVersionFile sel.cef_version ∈ exRunEffects :=
  C5_report_and_marker exArgs "Linux" "x86_64" exIndex true
    "out/cef_binary_120.2.7_linux64_minimal" [] exRunEffects rfl (by rfl)

end DownloadCef
